import Mathlib

/-!
Shallow embedding of `overlap_map_bed_generator/overlap_map_bed_generator.py`
(class `GenerateBed`), the interval pipeline that produces the CHAS mask BED
file.  Pandas dataframes are modelled as Lean lists of records; the duckdb
join, the pandas groupby/filter/apply/agg chain and the natsort human sort
are modelled by the list operations below, each documented at its definition.
Coordinates are `Int` (pandas int64 never overflows on genomic coordinates).
-/

namespace OverlapMap

/-- A probe row of the non-coding probes dataframe (`Chr`, `Pos`, `Probe`);
the `Stop` column is dropped by `get_noncoding_probes`. -/
structure Probe where
  chr : String
  pos : Int
  id : String
deriving DecidableEq, Repr

/-- A non-coding region row (`Chr`, `Start`, `Stop`) of
`noncoding_regions_df`. -/
structure Region where
  chr : String
  start : Int
  stop : Int
deriving DecidableEq, Repr

/-- A row of the final `regions_to_mask_df`: `Chr`, `region_start`,
`region_stop` and the `Range` label column. -/
structure MaskRow where
  chr : String
  region_start : Int
  region_stop : Int
  label : String
deriving DecidableEq, Repr

/-- A row of the genes dataframe after `get_coding_regions_bed` has dropped
the superfluous columns and swapped `Start`/`Stop` on negative strand:
index `name`, columns `Chr`, `Start`, `Stop`, `strand`, `category`. -/
structure AnnRecord where
  name : String
  chr : String
  start : Int
  stop : Int
  strand : String
  category : String
deriving DecidableEq, Repr

/-- A condensed per-gene region produced by `condense_regions`
(one row per `(name, Chr)` group with aggregated `Start`/`Stop`). -/
structure GeneRegion where
  name : String
  chr : String
  start : Int
  stop : Int
deriving DecidableEq, Repr

/-! ## Generic list helpers (models of pandas primitives) -/

/-- `np.min` over a column: `none` on an empty group. -/
def listMin : List Int → Option Int
  | [] => none
  | x :: xs => some (xs.foldl min x)

/-- `np.max` over a column: `none` on an empty group. -/
def listMax : List Int → Option Int
  | [] => none
  | x :: xs => some (xs.foldl max x)

/-- Model of `DataFrame.drop_duplicates(subset=key)` (keep the first row of
each key class), written with an accumulator of already seen keys so that the
recursion is structural. -/
def dedupByKeyAux {α κ : Type} (key : α → κ) [DecidableEq κ] :
    List κ → List α → List α
  | _, [] => []
  | seen, x :: xs =>
    if key x ∈ seen then dedupByKeyAux key seen xs
    else x :: dedupByKeyAux key (key x :: seen) xs

/-- `drop_duplicates` keyed by `key`, keeping the first occurrence. -/
def dedupByKey {α κ : Type} (key : α → κ) [DecidableEq κ] (l : List α) :
    List α :=
  dedupByKeyAux key [] l

/-! ## Natural ("human") order on chromosome names

`natsort.index_humansorted` sorts the `Chr` column by the natural-sort key:
the string is split into maximal runs of digits and non-digits, digit runs
compare as numbers, other runs compare as strings, and a digit run sorts
before a string run when the two keys disagree in kind (natsort pads keys so
that numbers come first).  The split is computed right-to-left so that the
recursion is structural. -/

/-- Split a character list into maximal runs, each tagged with `true` when it
is a run of digits. -/
def charRuns : List Char → List (Bool × List Char)
  | [] => []
  | c :: cs =>
    match charRuns cs with
    | [] => [(c.isDigit, [c])]
    | (b, run) :: more =>
      if c.isDigit = b then (b, c :: run) :: more
      else (c.isDigit, [c]) :: (b, run) :: more

/-- Numeric value of a digit run. -/
def digitsToNat (ds : List Char) : Nat :=
  ds.foldl (fun n c => 10 * n + (c.toNat - 48)) 0

/-- The natural-sort key of a string: digit runs become numbers (`inl`, which
the lexicographic sum order puts first), other runs stay as character lists
(`inr`, ordered lexicographically by code point, as Python compares
strings). -/
def humanKey (s : String) : List (ℕ ⊕ₗ List Char) :=
  (charRuns s.toList).map
    (fun br => if br.1 then toLex (Sum.inl (digitsToNat br.2))
               else toLex (Sum.inr br.2))

/-- Comparison of two mask rows by the natural order of their chromosome
names only — this is everything `index_humansorted` sorts by. -/
def rowChrLe (a b : MaskRow) : Prop := humanKey a.chr ≤ humanKey b.chr

instance : DecidableRel rowChrLe := fun a b =>
  inferInstanceAs (Decidable (humanKey a.chr ≤ humanKey b.chr))

instance : IsTotal MaskRow rowChrLe :=
  ⟨fun a b => le_total (humanKey a.chr) (humanKey b.chr)⟩

instance : IsTrans MaskRow rowChrLe :=
  ⟨fun _ _ _ h1 h2 => le_trans h1 h2⟩

/-! ## Gene Region Condenser (`filter_to_coding_regions`, `condense_regions`) -/

/-- The row mask `regions_df["category"].str.contains("refseq/coding")`
(the pattern has no regex metacharacters, so it is a plain substring test). -/
def isCoding (r : AnnRecord) : Bool :=
  decide ("refseq/coding".toList <:+: r.category.toList)

/-- `sort_values(by=['name'])` comparison (Python compares strings
lexicographically by code point, i.e. as their character lists). -/
def nameLe (a b : AnnRecord) : Prop := a.name.toList ≤ b.name.toList

instance : DecidableRel nameLe := fun a b =>
  inferInstanceAs (Decidable (a.name.toList ≤ b.name.toList))

instance : IsTotal AnnRecord nameLe :=
  ⟨fun a b => le_total a.name.toList b.name.toList⟩

instance : IsTrans AnnRecord nameLe := ⟨fun _ _ _ h1 h2 => le_trans h1 h2⟩

/-- `GenerateBed.filter_to_coding_regions`: keep the rows whose category
contains `"refseq/coding"`, sort by the `name` index, and drop duplicate
rows.  `name` is the dataframe index and `category`/`strand` have been
dropped by this point, so `drop_duplicates` keys on the visible columns
`(Chr, Start, Stop)` only — not on the gene name. -/
def filter_to_coding_regions (rows : List AnnRecord) : List AnnRecord :=
  dedupByKey (fun r => (r.chr, r.start, r.stop))
    (List.insertionSort nameLe (rows.filter isCoding))

/-- Sort order of the `(name, Chr)` groupby keys. -/
def pairLe (a b : String × String) : Prop :=
  toLex (a.1.toList, a.2.toList) ≤ toLex (b.1.toList, b.2.toList)

instance : DecidableRel pairLe := fun a b =>
  inferInstanceAs
    (Decidable (toLex (a.1.toList, a.2.toList) ≤ toLex (b.1.toList, b.2.toList)))

instance : IsTotal (String × String) pairLe :=
  ⟨fun a b =>
    le_total (toLex (a.1.toList, a.2.toList)) (toLex (b.1.toList, b.2.toList))⟩

instance : IsTrans (String × String) pairLe :=
  ⟨fun _ _ _ h1 h2 => le_trans h1 h2⟩

/-- `GenerateBed.condense_regions`: group by `(name, Chr)` (pandas sorts the
group keys ascending) and aggregate `Start` with `min` and `Stop` with `max`.
Groups are non-empty, so the `getD` defaults are never used. -/
def condense_regions (rows : List AnnRecord) : List GeneRegion :=
  (dedupByKey id
      (List.insertionSort pairLe (rows.map (fun r => (r.name, r.chr))))).map
    (fun gc =>
      { name := gc.1
        chr := gc.2
        start :=
          (listMin ((rows.filter
            (fun r => decide (r.name = gc.1 ∧ r.chr = gc.2))).map
              AnnRecord.start)).getD 0
        stop :=
          (listMax ((rows.filter
            (fun r => decide (r.name = gc.1 ∧ r.chr = gc.2))).map
              AnnRecord.stop)).getD 0 })

/-! ## Probe-Region Assigner (`match_probes_to_regions`) -/

/-- The duckdb join predicate
`probes.Chr = regions.Chr AND Pos >= Start AND Pos <= Stop`. -/
def containsB (r : Region) (p : Probe) : Bool :=
  decide (p.chr = r.chr) && decide (r.start ≤ p.pos) && decide (p.pos ≤ r.stop)

/-- Groupby key order on regions: pandas sorts the `(Start, Stop, Chr)`
group keys lexicographically ascending. -/
def keyLe (a b : Region) : Prop :=
  toLex (a.start, toLex (a.stop, a.chr.toList)) ≤
    toLex (b.start, toLex (b.stop, b.chr.toList))

instance : DecidableRel keyLe := fun a b =>
  inferInstanceAs
    (Decidable (toLex (a.start, toLex (a.stop, a.chr.toList)) ≤
      toLex (b.start, toLex (b.stop, b.chr.toList))))

instance : IsTotal Region keyLe :=
  ⟨fun a b =>
    le_total (toLex (a.start, toLex (a.stop, a.chr.toList)))
      (toLex (b.start, toLex (b.stop, b.chr.toList)))⟩

instance : IsTrans Region keyLe := ⟨fun _ _ _ h1 h2 => le_trans h1 h2⟩

/-- In-group probe order: `sort_values(by=["Pos"], ascending=True)`. -/
def posLe (p q : Probe) : Prop := p.pos ≤ q.pos

instance : DecidableRel posLe := fun p q =>
  inferInstanceAs (Decidable (p.pos ≤ q.pos))

instance : IsTotal Probe posLe := ⟨fun p q => le_total p.pos q.pos⟩

instance : IsTrans Probe posLe := ⟨fun _ _ _ h1 h2 => le_trans h1 h2⟩

/-- The distinct `(Start, Stop, Chr)` group keys of the joined dataframe in
pandas groupby order: the region records that contain at least one probe,
sorted ascending. -/
def matchedKeys (probes : List Probe) (regions : List Region) : List Region :=
  dedupByKey id
    (List.insertionSort keyLe
      (regions.filter (fun r => probes.any (fun p => containsB r p))))

/-- The probe rows of one group: every join row whose region columns equal
`r` (one copy per region-list entry equal to `r`), sorted by `Pos`. -/
def groupProbesFor (probes : List Probe) (regions : List Region)
    (r : Region) : List Probe :=
  List.insertionSort posLe
    ((regions.filter (fun r2 => decide (r2 = r))).flatMap
      (fun _ => probes.filter (fun p => containsB r p)))

/-- `GenerateBed.match_probes_to_regions`: join probes to the regions that
contain them and split into per-region groups sorted by position. -/
def match_probes_to_regions (probes : List Probe) (regions : List Region) :
    List (Region × List Probe) :=
  (matchedKeys probes regions).map
    (fun r => (r, groupProbesFor probes regions r))

/-! ## Region Trimmer & Aggregator -/

/-- `GenerateBed.remove_regions`: drop every group with fewer than
`2 * num_probes` probe rows. -/
def remove_regions (m : Nat) (groups : List (Region × List Probe)) :
    List (Region × List Probe) :=
  groups.filter (fun g => decide (2 * m ≤ g.2.length))

/-- The Python slice `x.iloc[(m-1):-(m-1)]` used by
`remove_probes_by_distance` (for `num_probes = m ≥ 1`).  When `m = 1` the
slice is `[0:-0] = [0:0]`, the empty slice, so the whole group is emptied;
for `m ≥ 2` it drops the first and last `m - 1` elements. -/
def pySliceTrim {α : Type} (m : Nat) (l : List α) : List α :=
  if m - 1 = 0 then [] else (l.drop (m - 1)).take (l.length - 2 * (m - 1))

/-- `GenerateBed.remove_probes_by_distance`: apply the edge slice to each
remaining group. -/
def remove_probes_by_distance (m : Nat)
    (groups : List (Region × List Probe)) : List (Region × List Probe) :=
  groups.map (fun g => (g.1, pySliceTrim m g.2))

/-- The `agg(region_start=('Pos', np.min), region_stop=('Pos', np.max))` step
for one group, plus the `Range` label column added afterwards
(`str(region_start) + "-" + str(region_stop)`).  A group with no remaining
rows contributes no output row. -/
def aggRow (k : Region) (ps : List Probe) : Option MaskRow :=
  match listMin (ps.map Probe.pos), listMax (ps.map Probe.pos) with
  | some a, some b =>
    some { chr := k.chr, region_start := a, region_stop := b,
           label := toString a ++ "-" ++ toString b }
  | _, _ => none

/-- `GenerateBed.get_regions_to_mask`: group, drop small groups, trim edges,
aggregate each group to its min/max retained position, drop duplicate
`(Chr, region_start, region_stop)` rows, and finally reorder the rows by the
natural order of the `Chr` column (`natsort.index_humansorted`, a stable
sort on the chromosome name only). -/
def get_regions_to_mask (m : Nat) (probes : List Probe)
    (regions : List Region) : List MaskRow :=
  List.insertionSort rowChrLe
    (dedupByKey id
      ((remove_probes_by_distance m
          (remove_regions m (match_probes_to_regions probes regions))).filterMap
        (fun g => aggRow g.1 g.2)))

/-- `GenerateBed.write_to_final_csv`: the output file as a list of lines —
the literal track line followed by one tab-separated row per mask region
with columns `Chr`, `region_start`, `region_stop`, `Range` and no header
row. -/
def write_to_final_csv (rows : List MaskRow) : List String :=
  "track db=\"hg38\"" ::
    rows.map (fun row =>
      row.chr ++ "\t" ++ toString row.region_start ++ "\t" ++
        toString row.region_stop ++ "\t" ++ row.label)

/-! ## Lemmas about the deduplication helper -/

theorem dedupByKeyAux_sublist {α κ : Type} (key : α → κ) [DecidableEq κ] :
    ∀ (seen : List κ) (l : List α), (dedupByKeyAux key seen l).Sublist l := by
  intro seen l
  induction l generalizing seen with
  | nil => simp [dedupByKeyAux]
  | cons x xs ih =>
    by_cases h : key x ∈ seen
    · simp only [dedupByKeyAux, if_pos h]
      exact (ih seen).trans (List.sublist_cons_self x xs)
    · simp only [dedupByKeyAux, if_neg h]
      exact (ih (key x :: seen)).cons₂ x

theorem dedupByKey_sublist {α κ : Type} (key : α → κ) [DecidableEq κ]
    (l : List α) : (dedupByKey key l).Sublist l :=
  dedupByKeyAux_sublist key [] l

theorem key_not_mem_of_mem_dedupByKeyAux {α κ : Type} {key : α → κ}
    [DecidableEq κ] {a : α} :
    ∀ (seen : List κ) (l : List α),
      a ∈ dedupByKeyAux key seen l → key a ∉ seen := by
  intro seen l
  induction l generalizing seen with
  | nil => simp [dedupByKeyAux]
  | cons x xs ih =>
    by_cases h : key x ∈ seen
    · simpa only [dedupByKeyAux, if_pos h] using ih seen
    · simp only [dedupByKeyAux, if_neg h, List.mem_cons]
      rintro (rfl | hmem)
      · exact h
      · intro hs
        exact ih (key x :: seen) hmem (List.mem_cons_of_mem _ hs)

theorem pairwise_key_ne_dedupByKeyAux {α κ : Type} (key : α → κ)
    [DecidableEq κ] :
    ∀ (seen : List κ) (l : List α),
      (dedupByKeyAux key seen l).Pairwise (fun a b => key a ≠ key b) := by
  intro seen l
  induction l generalizing seen with
  | nil => simp [dedupByKeyAux]
  | cons x xs ih =>
    by_cases h : key x ∈ seen
    · simpa only [dedupByKeyAux, if_pos h] using ih seen
    · simp only [dedupByKeyAux, if_neg h]
      refine List.Pairwise.cons ?_ (ih (key x :: seen))
      intro b hb he
      exact key_not_mem_of_mem_dedupByKeyAux (key x :: seen) xs hb
        (by rw [← he]; exact List.mem_cons_self _ _)

theorem pairwise_key_ne_dedupByKey {α κ : Type} (key : α → κ)
    [DecidableEq κ] (l : List α) :
    (dedupByKey key l).Pairwise (fun a b => key a ≠ key b) :=
  pairwise_key_ne_dedupByKeyAux key [] l

theorem exists_rep_mem_dedupByKeyAux {α κ : Type} {key : α → κ}
    [DecidableEq κ] {a : α} :
    ∀ (seen : List κ) (l : List α), a ∈ l →
      key a ∈ seen ∨ ∃ b ∈ dedupByKeyAux key seen l, key b = key a := by
  intro seen l
  induction l generalizing seen with
  | nil => simp
  | cons x xs ih =>
    intro hmem
    rcases List.mem_cons.mp hmem with rfl | hmem'
    · by_cases h : key a ∈ seen
      · exact Or.inl h
      · exact Or.inr ⟨a, by simp [dedupByKeyAux, if_neg h], rfl⟩
    · by_cases h : key x ∈ seen
      · simpa only [dedupByKeyAux, if_pos h] using ih seen hmem'
      · rcases ih (key x :: seen) hmem' with hs | ⟨b, hb, hkb⟩
        · rcases List.mem_cons.mp hs with he | hs'
          · exact Or.inr ⟨x, by simp [dedupByKeyAux, if_neg h], he.symm⟩
          · exact Or.inl hs'
        · refine Or.inr ⟨b, ?_, hkb⟩
          simp only [dedupByKeyAux, if_neg h]
          exact List.mem_cons_of_mem _ hb

theorem exists_rep_mem_dedupByKey {α κ : Type} {key : α → κ} [DecidableEq κ]
    {a : α} {l : List α} (h : a ∈ l) :
    ∃ b ∈ dedupByKey key l, key b = key a := by
  rcases exists_rep_mem_dedupByKeyAux ([] : List κ) l h with hs | hb
  · simp at hs
  · exact hb

theorem mem_dedupByKey_id {α : Type} [DecidableEq α] {a : α} {l : List α} :
    a ∈ dedupByKey id l ↔ a ∈ l := by
  constructor
  · exact fun h => (dedupByKey_sublist id l).subset h
  · intro h
    rcases @exists_rep_mem_dedupByKey α α id _ a l h with ⟨b, hb, he⟩
    simpa [show b = a from he] using hb

/-! ## Lemmas about `listMin` / `listMax` -/

theorem foldl_min_le_init : ∀ (xs : List Int) (x : Int), xs.foldl min x ≤ x := by
  intro xs
  induction xs with
  | nil => intro x; simp
  | cons y ys ih =>
    intro x
    exact le_trans (ih (min x y)) (min_le_left x y)

theorem foldl_min_le_mem :
    ∀ (xs : List Int) (x y : Int), y ∈ xs → xs.foldl min x ≤ y := by
  intro xs
  induction xs with
  | nil => simp
  | cons z zs ih =>
    intro x y hy
    rcases List.mem_cons.mp hy with rfl | hy'
    · exact le_trans (foldl_min_le_init zs (min x y)) (min_le_right x y)
    · exact ih (min x z) y hy'

theorem foldl_min_mem_or :
    ∀ (xs : List Int) (x : Int), xs.foldl min x = x ∨ xs.foldl min x ∈ xs := by
  intro xs
  induction xs with
  | nil => intro x; simp
  | cons z zs ih =>
    intro x
    rcases ih (min x z) with he | hm
    · rcases min_choice x z with h1 | h1
      · exact Or.inl (by rw [List.foldl_cons, he, h1])
      · exact Or.inr (by rw [List.foldl_cons, he, h1]; exact List.mem_cons_self _ _)
    · exact Or.inr (List.mem_cons_of_mem _ hm)

theorem listMin_mem {l : List Int} {a : Int} (h : listMin l = some a) : a ∈ l := by
  cases l with
  | nil => simp [listMin] at h
  | cons x xs =>
    simp only [listMin, Option.some_inj] at h
    rcases foldl_min_mem_or xs x with he | hm
    · rw [← h, he]; exact List.mem_cons_self _ _
    · rw [← h]; exact List.mem_cons_of_mem _ hm

theorem listMin_le {l : List Int} {a : Int} (h : listMin l = some a) :
    ∀ y ∈ l, a ≤ y := by
  cases l with
  | nil => simp [listMin] at h
  | cons x xs =>
    simp only [listMin, Option.some_inj] at h
    intro y hy
    rcases List.mem_cons.mp hy with rfl | hy'
    · rw [← h]; exact foldl_min_le_init xs y
    · rw [← h]; exact foldl_min_le_mem xs x y hy'

theorem foldl_max_init_le : ∀ (xs : List Int) (x : Int), x ≤ xs.foldl max x := by
  intro xs
  induction xs with
  | nil => intro x; simp
  | cons y ys ih =>
    intro x
    exact le_trans (le_max_left x y) (ih (max x y))

theorem foldl_max_mem_le :
    ∀ (xs : List Int) (x y : Int), y ∈ xs → y ≤ xs.foldl max x := by
  intro xs
  induction xs with
  | nil => simp
  | cons z zs ih =>
    intro x y hy
    rcases List.mem_cons.mp hy with rfl | hy'
    · exact le_trans (le_max_right x y) (foldl_max_init_le zs (max x y))
    · exact ih (max x z) y hy'

theorem foldl_max_mem_or :
    ∀ (xs : List Int) (x : Int), xs.foldl max x = x ∨ xs.foldl max x ∈ xs := by
  intro xs
  induction xs with
  | nil => intro x; simp
  | cons z zs ih =>
    intro x
    rcases ih (max x z) with he | hm
    · rcases max_choice x z with h1 | h1
      · exact Or.inl (by rw [List.foldl_cons, he, h1])
      · exact Or.inr (by rw [List.foldl_cons, he, h1]; exact List.mem_cons_self _ _)
    · exact Or.inr (List.mem_cons_of_mem _ hm)

theorem listMax_mem {l : List Int} {b : Int} (h : listMax l = some b) : b ∈ l := by
  cases l with
  | nil => simp [listMax] at h
  | cons x xs =>
    simp only [listMax, Option.some_inj] at h
    rcases foldl_max_mem_or xs x with he | hm
    · rw [← h, he]; exact List.mem_cons_self _ _
    · rw [← h]; exact List.mem_cons_of_mem _ hm

theorem listMax_ge {l : List Int} {b : Int} (h : listMax l = some b) :
    ∀ y ∈ l, y ≤ b := by
  cases l with
  | nil => simp [listMax] at h
  | cons x xs =>
    simp only [listMax, Option.some_inj] at h
    intro y hy
    rcases List.mem_cons.mp hy with rfl | hy'
    · rw [← h]; exact foldl_max_init_le xs y
    · rw [← h]; exact foldl_max_mem_le xs x y hy'

/-! ## Lemmas about the Python slice -/

theorem pySliceTrim_sublist {α : Type} (m : Nat) (l : List α) :
    (pySliceTrim m l).Sublist l := by
  unfold pySliceTrim
  split
  · exact List.nil_sublist l
  · exact (List.take_sublist _ _).trans (List.drop_sublist _ _)

theorem pySliceTrim_decomp {α : Type} {m : Nat} {l : List α} (hm : 2 ≤ m)
    (hl : 2 * m ≤ l.length) :
    ∃ pre mid post, l = pre ++ mid ++ post ∧ pre.length = m - 1 ∧
      post.length = m - 1 ∧ pySliceTrim m l = mid ∧
      mid.length = l.length - 2 * (m - 1) := by
  have ha : ¬ (m - 1 = 0) := by omega
  refine ⟨l.take (m - 1), (l.drop (m - 1)).take (l.length - 2 * (m - 1)),
    (l.drop (m - 1)).drop (l.length - 2 * (m - 1)), ?_, ?_, ?_, ?_, ?_⟩
  · rw [List.append_assoc, List.take_append_drop, List.take_append_drop]
  · rw [List.length_take]; omega
  · simp only [List.length_drop]; omega
  · unfold pySliceTrim; rw [if_neg ha]
  · rw [List.length_take, List.length_drop]; omega

theorem pySliceTrim_eq_nil_of_one {α : Type} (l : List α) :
    pySliceTrim 1 l = [] := by
  unfold pySliceTrim
  rw [if_pos rfl]

/-! ## Lemmas about the probe-region matcher -/

theorem containsB_iff {r : Region} {p : Probe} :
    containsB r p = true ↔ (p.chr = r.chr ∧ r.start ≤ p.pos ∧ p.pos ≤ r.stop) := by
  simp [containsB, Bool.and_eq_true, decide_eq_true_eq, and_assoc]

theorem mem_groupProbesFor {probes : List Probe} {regions : List Region}
    {r : Region} {p : Probe} :
    p ∈ groupProbesFor probes regions r ↔
      (r ∈ regions ∧ p ∈ probes ∧ containsB r p = true) := by
  unfold groupProbesFor
  rw [(List.perm_insertionSort posLe _).mem_iff]
  simp only [List.mem_flatMap, List.mem_filter, decide_eq_true_eq]
  constructor
  · rintro ⟨r2, ⟨hr2, rfl⟩, hp, hc⟩
    exact ⟨hr2, hp, hc⟩
  · rintro ⟨hr, hp, hc⟩
    exact ⟨r, ⟨hr, rfl⟩, hp, hc⟩

theorem mem_matchedKeys {probes : List Probe} {regions : List Region}
    {r : Region} :
    r ∈ matchedKeys probes regions ↔
      (r ∈ regions ∧ ∃ p ∈ probes, containsB r p = true) := by
  unfold matchedKeys
  rw [mem_dedupByKey_id, (List.perm_insertionSort keyLe _).mem_iff]
  simp [List.mem_filter, List.any_eq_true]

theorem mem_match_elim {probes : List Probe} {regions : List Region}
    {r : Region} {ps : List Probe}
    (h : (r, ps) ∈ match_probes_to_regions probes regions) :
    r ∈ matchedKeys probes regions ∧ ps = groupProbesFor probes regions r := by
  unfold match_probes_to_regions at h
  rcases List.mem_map.mp h with ⟨k, hk, he⟩
  have h1 : k = r := congrArg Prod.fst he
  have h2 : groupProbesFor probes regions k = ps := congrArg Prod.snd he
  subst h1
  exact ⟨hk, h2.symm⟩

theorem mem_match_group_iff {probes : List Probe} {regions : List Region}
    {r : Region} {p : Probe} :
    (∃ ps, (r, ps) ∈ match_probes_to_regions probes regions ∧ p ∈ ps) ↔
      (r ∈ regions ∧ p ∈ probes ∧ containsB r p = true) := by
  constructor
  · rintro ⟨ps, hmem, hp⟩
    rcases mem_match_elim hmem with ⟨_, rfl⟩
    exact mem_groupProbesFor.mp hp
  · rintro ⟨hr, hp, hc⟩
    refine ⟨groupProbesFor probes regions r, ?_,
      mem_groupProbesFor.mpr ⟨hr, hp, hc⟩⟩
    exact List.mem_map.mpr ⟨r, mem_matchedKeys.mpr ⟨hr, p, hp, hc⟩, rfl⟩

theorem sorted_groupProbesFor (probes : List Probe) (regions : List Region)
    (r : Region) : (groupProbesFor probes regions r).Pairwise posLe :=
  List.sorted_insertionSort posLe _

theorem matchedKeys_sorted (probes : List Probe) (regions : List Region) :
    (matchedKeys probes regions).Pairwise keyLe :=
  List.Pairwise.sublist (dedupByKey_sublist id _)
    (List.sorted_insertionSort keyLe _)

theorem matchedKeys_pairwise_ne (probes : List Probe) (regions : List Region) :
    (matchedKeys probes regions).Pairwise (fun a b => a ≠ b) :=
  pairwise_key_ne_dedupByKey id _

theorem matchedKeys_subset {probes : List Probe} {regions : List Region} :
    matchedKeys probes regions ⊆ regions := fun _ hr =>
  (mem_matchedKeys.mp hr).1

/-! ## A stability property of insertion sort

Python's `sorted` (used by `natsort.index_humansorted`) is stable; insertion
sort is stable as well, which the following pairwise-transfer lemma
captures: any pairwise relation holding on the input still holds on the
output for pairs the sort did not strictly reorder. -/

theorem pairwise_orderedInsert_t {α : Type} (r : α → α → Prop)
    [DecidableRel r] (T : α → α → Prop) (x : α) :
    ∀ (l : List α), l.Pairwise T → (∀ b ∈ l, T x b) →
      (∀ b ∈ l, ¬ r x b → T b x) →
      (List.orderedInsert r x l).Pairwise T := by
  intro l
  induction l with
  | nil =>
    intro _ _ _
    simp [List.orderedInsert]
  | cons u us ih =>
    intro hl hx2 hx3
    by_cases hr : r x u
    · rw [List.orderedInsert, if_pos hr]
      exact List.Pairwise.cons (fun b hb => hx2 b hb) hl
    · rw [List.orderedInsert, if_neg hr]
      have hlc := List.pairwise_cons.mp hl
      refine List.Pairwise.cons ?_
        (ih hlc.2 (fun b hb => hx2 b (List.mem_cons_of_mem _ hb))
          (fun b hb => hx3 b (List.mem_cons_of_mem _ hb)))
      intro b hb
      rcases (List.mem_orderedInsert r).mp hb with rfl | hb'
      · exact hx3 u (List.mem_cons_self _ _) hr
      · exact hlc.1 b hb'

theorem pairwise_insertionSort_or {α : Type} (r : α → α → Prop)
    [DecidableRel r] [IsTotal α r] (S : α → α → Prop) :
    ∀ (l : List α), l.Pairwise S →
      (List.insertionSort r l).Pairwise
        (fun x y => S x y ∨ (r x y ∧ ¬ r y x)) := by
  intro l
  induction l with
  | nil =>
    intro _
    simp [List.insertionSort]
  | cons x xs ih =>
    intro h
    rw [List.insertionSort]
    have hS := List.pairwise_cons.mp h
    refine pairwise_orderedInsert_t r _ x _ (ih hS.2) ?_ ?_
    · intro b hb
      exact Or.inl (hS.1 b ((List.perm_insertionSort r xs).subset hb))
    · intro b _ hnr
      rcases total_of r x b with h1 | h2
      · exact absurd h1 hnr
      · exact Or.inr ⟨h2, hnr⟩

/-! ## The pipeline, one group key at a time -/

/-- The composite of `remove_regions`, `remove_probes_by_distance` and the
min/max aggregation of `get_regions_to_mask`, restricted to the single group
of key `k`: the optional output row that this group contributes. -/
def rowOfKey (m : Nat) (probes : List Probe) (regions : List Region)
    (k : Region) : Option MaskRow :=
  if 2 * m ≤ (groupProbesFor probes regions k).length then
    aggRow k (pySliceTrim m (groupProbesFor probes regions k))
  else none

theorem stage_filterMap_eq (m : Nat) (probes : List Probe)
    (regions : List Region) :
    ∀ ks : List Region,
      ((remove_probes_by_distance m (remove_regions m
          (ks.map (fun r => (r, groupProbesFor probes regions r))))).filterMap
        (fun g => aggRow g.1 g.2))
      = ks.filterMap (rowOfKey m probes regions) := by
  intro ks
  induction ks with
  | nil => rfl
  | cons k ks ih =>
    simp only [List.map_cons, remove_regions, List.filter_cons]
    by_cases h : 2 * m ≤ (groupProbesFor probes regions k).length
    · have e1 : rowOfKey m probes regions k =
          aggRow k (pySliceTrim m (groupProbesFor probes regions k)) := by
        rw [rowOfKey, if_pos h]
      rw [if_pos (by simpa using h)]
      simp only [remove_probes_by_distance, List.map_cons,
        List.filterMap_cons, e1]
      unfold remove_regions remove_probes_by_distance at ih
      cases aggRow k (pySliceTrim m (groupProbesFor probes regions k)) with
      | none => exact ih
      | some row => rw [ih]
    · have e1 : rowOfKey m probes regions k = none := by
        rw [rowOfKey, if_neg h]
      rw [if_neg (by simpa using h), List.filterMap_cons, e1]
      unfold remove_regions remove_probes_by_distance at ih
      exact ih

theorem get_regions_to_mask_eq (m : Nat) (probes : List Probe)
    (regions : List Region) :
    get_regions_to_mask m probes regions =
      List.insertionSort rowChrLe (dedupByKey id
        ((matchedKeys probes regions).filterMap
          (rowOfKey m probes regions))) := by
  unfold get_regions_to_mask match_probes_to_regions
  rw [stage_filterMap_eq]

theorem rowOfKey_spec {m : Nat} {probes : List Probe} {regions : List Region}
    {k : Region} {row : MaskRow}
    (h : rowOfKey m probes regions k = some row) :
    row.chr = k.chr ∧
    row.label = toString row.region_start ++ "-" ++ toString row.region_stop ∧
    row.region_start ≤ row.region_stop ∧
    2 * m ≤ (groupProbesFor probes regions k).length ∧
    (∃ p ∈ pySliceTrim m (groupProbesFor probes regions k),
      p.pos = row.region_start) ∧
    (∃ q ∈ pySliceTrim m (groupProbesFor probes regions k),
      q.pos = row.region_stop) := by
  unfold rowOfKey at h
  split at h
  case isTrue hlen =>
    unfold aggRow at h
    split at h
    case h_1 a b e f =>
      rcases Option.some.inj h with rfl
      refine ⟨rfl, rfl, ?_, hlen, ?_, ?_⟩
      · exact listMin_le e _ (listMax_mem f)
      · rcases List.mem_map.mp (listMin_mem e) with ⟨p, hp, he⟩
        exact ⟨p, hp, he⟩
      · rcases List.mem_map.mp (listMax_mem f) with ⟨q, hq, he⟩
        exact ⟨q, hq, he⟩
    case h_2 => exact Option.noConfusion h
  case isFalse => exact Option.noConfusion h

theorem rowOfKey_bounds {m : Nat} {probes : List Probe}
    {regions : List Region} {k : Region} {row : MaskRow}
    (h : rowOfKey m probes regions k = some row) :
    row.chr = k.chr ∧ k.start ≤ row.region_start ∧
    row.region_start ≤ row.region_stop ∧ row.region_stop ≤ k.stop := by
  obtain ⟨h1, _, h3, _, ⟨p, hp, hep⟩, ⟨q, hq, heq⟩⟩ := rowOfKey_spec h
  have hp' := mem_groupProbesFor.mp ((pySliceTrim_sublist _ _).subset hp)
  have hq' := mem_groupProbesFor.mp ((pySliceTrim_sublist _ _).subset hq)
  have hcp := containsB_iff.mp hp'.2.2
  have hcq := containsB_iff.mp hq'.2.2
  exact ⟨h1, hep ▸ hcp.2.1, h3, heq ▸ hcq.2.2⟩

theorem mem_get_regions_iff {m : Nat} {probes : List Probe}
    {regions : List Region} {row : MaskRow} :
    row ∈ get_regions_to_mask m probes regions ↔
      ∃ k ∈ matchedKeys probes regions,
        rowOfKey m probes regions k = some row := by
  rw [get_regions_to_mask_eq, (List.perm_insertionSort rowChrLe _).mem_iff,
    mem_dedupByKey_id, List.mem_filterMap]

theorem aggRow_isSome {k : Region} {ps : List Probe} (h : ps ≠ []) :
    ∃ row, aggRow k ps = some row ∧
      listMin (ps.map Probe.pos) = some row.region_start ∧
      listMax (ps.map Probe.pos) = some row.region_stop := by
  cases ps with
  | nil => exact absurd rfl h
  | cons x xs => exact ⟨⟨k.chr, _, _, _⟩, rfl, rfl, rfl⟩

theorem keyLe_start_le {a b : Region} (h : keyLe a b) : a.start ≤ b.start := by
  unfold keyLe at h
  rcases (Prod.Lex.le_iff _ _).mp h with h1 | ⟨h1, _⟩
  · exact le_of_lt h1
  · exact le_of_eq h1

/-! ## Shared concrete demonstration inputs -/

/-- Four probes on one chromosome, used by several witnesses. -/
def demoProbes4 : List Probe :=
  [⟨"chr1", 10, "a"⟩, ⟨"chr1", 20, "b"⟩, ⟨"chr1", 30, "c"⟩, ⟨"chr1", 40, "d"⟩]

/-- A single non-coding region containing `demoProbes4`. -/
def demoRegion : Region := ⟨"chr1", 0, 100⟩

/-! ## Claim theorems -/

/-- C1, as stated, is false: it quantifies over every margin ≥ 1, but at
margin 1 the slice `iloc[0:-0]` is `iloc[0:0]`, so the group of exactly
`2 × margin = 2` probes yields no MaskedRegion at all instead of one
covering 2 retained probes. -/
theorem trim_rule_margin_one_counterexample :
    ([⟨"chr1", 10, "a"⟩, ⟨"chr1", 20, "b"⟩] : List Probe).length = 2 * 1 ∧
    match_probes_to_regions [⟨"chr1", 10, "a"⟩, ⟨"chr1", 20, "b"⟩]
        [⟨"chr1", 0, 100⟩]
      = [(⟨"chr1", 0, 100⟩, [⟨"chr1", 10, "a"⟩, ⟨"chr1", 20, "b"⟩])] ∧
    get_regions_to_mask 1 [⟨"chr1", 10, "a"⟩, ⟨"chr1", 20, "b"⟩]
        [⟨"chr1", 0, 100⟩] = [] := by
  decide

/-- C1 amended to margin ≥ 2: a group of ordered size `L < 2 × margin` is
discarded by `remove_regions`; a group with `L ≥ 2 × margin` loses exactly
its first `margin − 1` and last `margin − 1` probes (the group is ascending
by position) and contributes one aggregated row whose `region_start` /
`region_stop` are the min/max position of the retained middle run — with
exactly 2 probes retained when `L = 2 × margin`. -/
theorem trim_rule_amended (m : Nat) (hm : 2 ≤ m) (probes : List Probe)
    (regions : List Region) (r : Region) (ps : List Probe)
    (hmem : (r, ps) ∈ match_probes_to_regions probes regions) :
    ps.Pairwise posLe ∧
    (ps.length < 2 * m →
      (r, ps) ∉ remove_regions m (match_probes_to_regions probes regions)) ∧
    (2 * m ≤ ps.length →
      ∃ pre mid post, ps = pre ++ mid ++ post ∧ pre.length = m - 1 ∧
        post.length = m - 1 ∧ pySliceTrim m ps = mid ∧
        (r, mid) ∈ remove_probes_by_distance m
          (remove_regions m (match_probes_to_regions probes regions)) ∧
        ∃ row, aggRow r mid = some row ∧
          listMin (mid.map Probe.pos) = some row.region_start ∧
          listMax (mid.map Probe.pos) = some row.region_stop ∧
          (ps.length = 2 * m → mid.length = 2)) := by
  obtain ⟨_, hps⟩ := mem_match_elim hmem
  refine ⟨hps ▸ sorted_groupProbesFor probes regions r, ?_, ?_⟩
  · intro hlt hin
    have := (List.mem_filter.mp hin).2
    simp only [decide_eq_true_eq] at this
    omega
  · intro hge
    obtain ⟨pre, mid, post, hdec, hpre, hpost, htrim, hmidlen⟩ :=
      pySliceTrim_decomp hm hge
    have hmem2 : (r, ps) ∈
        remove_regions m (match_probes_to_regions probes regions) :=
      List.mem_filter.mpr ⟨hmem, by simpa using hge⟩
    have hmid_ne : mid ≠ [] := by
      intro he
      rw [he] at hmidlen
      simp at hmidlen
      omega
    obtain ⟨row, hrow, hmin, hmax⟩ := aggRow_isSome (k := r) hmid_ne
    refine ⟨pre, mid, post, hdec, hpre, hpost, htrim, ?_,
      row, hrow, hmin, hmax, fun he => by omega⟩
    exact List.mem_map.mpr ⟨(r, ps), hmem2, by rw [htrim]⟩

/-- Witness for the amended C1: margin 2 on a group of four probes drops the
first and last probe and keeps the middle two. -/
theorem trim_rule_amended_witness :
    ((demoRegion, demoProbes4) ∈
      match_probes_to_regions demoProbes4 [demoRegion]) ∧
    (2 * 2 ≤ demoProbes4.length →
      ∃ pre mid post, demoProbes4 = pre ++ mid ++ post ∧
        pre.length = 2 - 1 ∧ post.length = 2 - 1 ∧
        pySliceTrim 2 demoProbes4 = mid ∧
        (demoRegion, mid) ∈ remove_probes_by_distance 2
          (remove_regions 2
            (match_probes_to_regions demoProbes4 [demoRegion])) ∧
        ∃ row, aggRow demoRegion mid = some row ∧
          listMin (mid.map Probe.pos) = some row.region_start ∧
          listMax (mid.map Probe.pos) = some row.region_stop ∧
          (demoProbes4.length = 2 * 2 → mid.length = 2)) :=
  ⟨by decide,
    (trim_rule_amended 2 (by omega) demoProbes4 [demoRegion] demoRegion
      demoProbes4 (by decide)).2.2⟩

/-- C2 is a claim the code violates although the surrounding comments state
the claim's behaviour as the intent: with margin 1 the slice
`iloc[(1-1):-(1-1)] = iloc[0:0]` empties every group, so a 3-probe group —
whose middle probe is more than 1 probe from every boundary and should
survive a no-op trim — produces no MaskedRegion at all. -/
theorem margin_one_trim_empties_groups :
    pySliceTrim 1 ([⟨"chr1", 10, "p1"⟩, ⟨"chr1", 20, "p2"⟩,
      ⟨"chr1", 30, "p3"⟩] : List Probe) = [] ∧
    match_probes_to_regions
        [⟨"chr1", 10, "p1"⟩, ⟨"chr1", 20, "p2"⟩, ⟨"chr1", 30, "p3"⟩]
        [⟨"chr1", 0, 100⟩]
      = [(⟨"chr1", 0, 100⟩,
          [⟨"chr1", 10, "p1"⟩, ⟨"chr1", 20, "p2"⟩, ⟨"chr1", 30, "p3"⟩])] ∧
    get_regions_to_mask 1
        [⟨"chr1", 10, "p1"⟩, ⟨"chr1", 20, "p2"⟩, ⟨"chr1", 30, "p3"⟩]
        [⟨"chr1", 0, 100⟩] = [] := by
  decide

/-- C6, as stated, is false: a probe contained in two overlapping regions is
silently assigned to both groups; no error of any kind is raised. -/
theorem overlap_silent_assignment_counterexample :
    match_probes_to_regions [⟨"chr1", 7, "p"⟩]
        [⟨"chr1", 0, 10⟩, ⟨"chr1", 5, 20⟩]
      = [(⟨"chr1", 0, 10⟩, [⟨"chr1", 7, "p"⟩]),
         (⟨"chr1", 5, 20⟩, [⟨"chr1", 7, "p"⟩])] := by
  decide

/-- C6 amended: probe assignment is a total function that never fails; a
probe contained in several non-coding regions is assigned to every one of
them (one group membership per containing region). -/
theorem overlap_silent_assignment_amended (probes : List Probe)
    (regions : List Region) (p : Probe) (r : Region) (hr : r ∈ regions)
    (hp : p ∈ probes)
    (hc : p.chr = r.chr ∧ r.start ≤ p.pos ∧ p.pos ≤ r.stop) :
    ∃ ps, (r, ps) ∈ match_probes_to_regions probes regions ∧ p ∈ ps :=
  mem_match_group_iff.mpr ⟨hr, hp, containsB_iff.mpr hc⟩

/-- Witness for the amended C6: the probe at 7 is assigned to the second of
two overlapping regions (and, symmetrically, to the first). -/
theorem overlap_silent_assignment_amended_witness :
    ∃ ps, ((⟨"chr1", 5, 20⟩ : Region), ps) ∈
        match_probes_to_regions [⟨"chr1", 7, "p"⟩]
          [⟨"chr1", 0, 10⟩, ⟨"chr1", 5, 20⟩] ∧
      (⟨"chr1", 7, "p"⟩ : Probe) ∈ ps :=
  overlap_silent_assignment_amended [⟨"chr1", 7, "p"⟩]
    [⟨"chr1", 0, 10⟩, ⟨"chr1", 5, 20⟩] ⟨"chr1", 7, "p"⟩ ⟨"chr1", 5, 20⟩
    (by decide) (by decide) (by decide)

/-- C7: a probe is assigned to a region's group exactly when it lies on the
same chromosome with `start ≤ pos ≤ stop`, inclusive at both ends. -/
theorem probe_containment_inclusive (probes : List Probe)
    (regions : List Region) (p : Probe) (r : Region) (hr : r ∈ regions) :
    (∃ ps, (r, ps) ∈ match_probes_to_regions probes regions ∧ p ∈ ps) ↔
      (p ∈ probes ∧ p.chr = r.chr ∧ r.start ≤ p.pos ∧ p.pos ≤ r.stop) := by
  rw [mem_match_group_iff]
  simp only [containsB_iff]
  tauto

/-- Witness for C7: a probe exactly at a region boundary (`pos = start`) is
assigned to that region. -/
theorem probe_containment_inclusive_witness :
    ∃ ps, ((⟨"chr1", 10, 20⟩ : Region), ps) ∈
        match_probes_to_regions [⟨"chr1", 10, "p"⟩] [⟨"chr1", 10, 20⟩] ∧
      (⟨"chr1", 10, "p"⟩ : Probe) ∈ ps :=
  (probe_containment_inclusive [⟨"chr1", 10, "p"⟩] [⟨"chr1", 10, 20⟩]
    ⟨"chr1", 10, "p"⟩ ⟨"chr1", 10, 20⟩ (by decide)).mpr (by decide)

/-- C8: the written output starts with the exact literal line
`track db="hg38"`, followed by one tab-separated row per MaskedRegion with
columns `(chromosome, region_start, region_stop, label)` and no header row,
and every label equals `"{region_start}-{region_stop}"`. -/
theorem output_file_format (m : Nat) (probes : List Probe)
    (regions : List Region) :
    write_to_final_csv (get_regions_to_mask m probes regions) =
      "track db=\"hg38\"" ::
        (get_regions_to_mask m probes regions).map (fun row =>
          row.chr ++ "\t" ++ toString row.region_start ++ "\t" ++
            toString row.region_stop ++ "\t" ++ row.label) ∧
    ∀ row ∈ get_regions_to_mask m probes regions,
      row.label = toString row.region_start ++ "-" ++ toString row.region_stop := by
  refine ⟨rfl, ?_⟩
  intro row hrow
  rcases mem_get_regions_iff.mp hrow with ⟨k, _, hk⟩
  exact (rowOfKey_spec hk).2.1

/-- Witness for C8: the concrete output of the demonstration run, and the
label of its single emitted row. -/
theorem output_file_format_witness :
    ((⟨"chr1", 20, 30, "20-30"⟩ : MaskRow) ∈
      get_regions_to_mask 2 demoProbes4 [demoRegion]) ∧
    (⟨"chr1", 20, 30, "20-30"⟩ : MaskRow).label =
      toString (⟨"chr1", 20, 30, "20-30"⟩ : MaskRow).region_start ++ "-" ++
        toString (⟨"chr1", 20, 30, "20-30"⟩ : MaskRow).region_stop ∧
    write_to_final_csv (get_regions_to_mask 2 demoProbes4 [demoRegion]) =
      ["track db=\"hg38\"", "chr1\t20\t30\t20-30"] :=
  ⟨by decide,
    (output_file_format 2 demoProbes4 [demoRegion]).2 _ (by decide),
    by decide⟩

/-- C9: every emitted MaskedRegion has `region_start ≤ region_stop`, both
endpoints are positions of input probes assigned to one and the same
non-coding region, and the row lies within that region's bounds. -/
theorem masked_region_invariants (m : Nat) (probes : List Probe)
    (regions : List Region) (row : MaskRow)
    (hrow : row ∈ get_regions_to_mask m probes regions) :
    row.region_start ≤ row.region_stop ∧
    ∃ r ∈ regions, row.chr = r.chr ∧ r.start ≤ row.region_start ∧
      row.region_stop ≤ r.stop ∧
      ∃ ps, (r, ps) ∈ match_probes_to_regions probes regions ∧
        (∃ p ∈ ps, p ∈ probes ∧ p.pos = row.region_start) ∧
        (∃ q ∈ ps, q ∈ probes ∧ q.pos = row.region_stop) := by
  rcases mem_get_regions_iff.mp hrow with ⟨k, hkmem, hk⟩
  obtain ⟨h1, h2, h3, h4⟩ := rowOfKey_bounds hk
  obtain ⟨_, _, _, _, ⟨p, hp, hep⟩, ⟨q, hq, heq⟩⟩ := rowOfKey_spec hk
  refine ⟨h3, k, matchedKeys_subset hkmem, h1, h2, h4,
    groupProbesFor probes regions k,
    List.mem_map.mpr ⟨k, hkmem, rfl⟩, ?_, ?_⟩
  · have hp' := (pySliceTrim_sublist _ _).subset hp
    exact ⟨p, hp', (mem_groupProbesFor.mp hp').2.1, hep⟩
  · have hq' := (pySliceTrim_sublist _ _).subset hq
    exact ⟨q, hq', (mem_groupProbesFor.mp hq').2.1, heq⟩

/-- Witness for C9: the invariants instantiated on the demonstration run's
single emitted row. -/
theorem masked_region_invariants_witness :
    ((⟨"chr1", 20, 30, "20-30"⟩ : MaskRow) ∈
      get_regions_to_mask 2 demoProbes4 [demoRegion]) ∧
    ((⟨"chr1", 20, 30, "20-30"⟩ : MaskRow).region_start ≤
        (⟨"chr1", 20, 30, "20-30"⟩ : MaskRow).region_stop ∧
      ∃ r ∈ [demoRegion], (⟨"chr1", 20, 30, "20-30"⟩ : MaskRow).chr = r.chr ∧
        r.start ≤ (⟨"chr1", 20, 30, "20-30"⟩ : MaskRow).region_start ∧
        (⟨"chr1", 20, 30, "20-30"⟩ : MaskRow).region_stop ≤ r.stop ∧
        ∃ ps, (r, ps) ∈ match_probes_to_regions demoProbes4 [demoRegion] ∧
          (∃ p ∈ ps, p ∈ demoProbes4 ∧
            p.pos = (⟨"chr1", 20, 30, "20-30"⟩ : MaskRow).region_start) ∧
          (∃ q ∈ ps, q ∈ demoProbes4 ∧
            q.pos = (⟨"chr1", 20, 30, "20-30"⟩ : MaskRow).region_stop)) :=
  ⟨by decide,
    masked_region_invariants 2 demoProbes4 [demoRegion] _ (by decide)⟩

/-- C10: when every group is smaller than `2 × margin`, the pipeline still
completes and the output file is exactly the single track line. -/
theorem all_groups_discarded_header_only (m : Nat) (probes : List Probe)
    (regions : List Region)
    (h : ∀ g ∈ match_probes_to_regions probes regions, g.2.length < 2 * m) :
    get_regions_to_mask m probes regions = [] ∧
    write_to_final_csv (get_regions_to_mask m probes regions) =
      ["track db=\"hg38\""] := by
  have he : get_regions_to_mask m probes regions = [] := by
    rw [get_regions_to_mask_eq]
    have hnil : (matchedKeys probes regions).filterMap
        (rowOfKey m probes regions) = [] := by
      rw [List.filterMap_eq_nil_iff]
      intro k hk
      rw [rowOfKey, if_neg]
      exact Nat.not_le.mpr
        (h (k, groupProbesFor probes regions k) (List.mem_map.mpr ⟨k, hk, rfl⟩))
    rw [hnil]
    rfl
  exact ⟨he, by rw [he]; rfl⟩

/-- Witness for C10: three probes in one region with margin 2 — the single
group of size 3 < 4 is discarded and only the track line is written. -/
theorem all_groups_discarded_header_only_witness :
    (∀ g ∈ match_probes_to_regions
        [⟨"chr1", 10, "p1"⟩, ⟨"chr1", 20, "p2"⟩, ⟨"chr1", 30, "p3"⟩]
        [demoRegion], g.2.length < 2 * 2) ∧
    (get_regions_to_mask 2
        [⟨"chr1", 10, "p1"⟩, ⟨"chr1", 20, "p2"⟩, ⟨"chr1", 30, "p3"⟩]
        [demoRegion] = [] ∧
      write_to_final_csv (get_regions_to_mask 2
        [⟨"chr1", 10, "p1"⟩, ⟨"chr1", 20, "p2"⟩, ⟨"chr1", 30, "p3"⟩]
        [demoRegion]) = ["track db=\"hg38\""]) :=
  ⟨by decide,
    all_groups_discarded_header_only 2
      [⟨"chr1", 10, "p1"⟩, ⟨"chr1", 20, "p2"⟩, ⟨"chr1", 30, "p3"⟩]
      [demoRegion] (by decide)⟩

/-- C5: under the complement invariant (same-chromosome non-coding regions
are pairwise disjoint), the emitted rows are sorted by the natural/human
order of the chromosome name, and rows sharing a chromosome are in ascending
`region_start` order. -/
theorem final_rows_sorted (m : Nat) (probes : List Probe)
    (regions : List Region)
    (H : ∀ r1 ∈ regions, ∀ r2 ∈ regions, r1.chr = r2.chr →
      r1 = r2 ∨ r1.stop < r2.start ∨ r2.stop < r1.start) :
    (get_regions_to_mask m probes regions).Pairwise
      (fun a b => humanKey a.chr ≤ humanKey b.chr ∧
        (a.chr = b.chr → a.region_start ≤ b.region_start)) := by
  rw [get_regions_to_mask_eq]
  have hS : (dedupByKey id ((matchedKeys probes regions).filterMap
      (rowOfKey m probes regions))).Pairwise
        (fun a b => a.chr = b.chr → a.region_start ≤ b.region_start) := by
    apply List.Pairwise.sublist (dedupByKey_sublist id _)
    rw [List.pairwise_filterMap]
    have hkeys : (matchedKeys probes regions).Pairwise
        (fun k1 k2 => keyLe k1 k2 ∧ k1 ≠ k2) :=
      (matchedKeys_sorted probes regions).and
        (matchedKeys_pairwise_ne probes regions)
    refine List.Pairwise.imp_of_mem ?_ hkeys
    rintro k1 k2 hm1 hm2 ⟨hle, hne⟩
    intro row1 h1 row2 h2 hchr
    have e1 : rowOfKey m probes regions k1 = some row1 := h1
    have e2 : rowOfKey m probes regions k2 = some row2 := h2
    obtain ⟨hc1, hb1, hb1', hb1''⟩ := rowOfKey_bounds e1
    obtain ⟨hc2, hb2, hb2', hb2''⟩ := rowOfKey_bounds e2
    have hkchr : k1.chr = k2.chr := by rw [← hc1, ← hc2, hchr]
    rcases H k1 (matchedKeys_subset hm1) k2 (matchedKeys_subset hm2) hkchr
      with he | hd | hd
    · exact absurd he hne
    · omega
    · have := keyLe_start_le hle
      omega
  have hsorted := List.sorted_insertionSort rowChrLe
    (dedupByKey id ((matchedKeys probes regions).filterMap
      (rowOfKey m probes regions)))
  have hor := pairwise_insertionSort_or rowChrLe _ _ hS
  refine (List.Pairwise.and hsorted hor).imp ?_
  rintro a b ⟨hle, hS' | ⟨_, hnle⟩⟩
  · exact ⟨hle, hS'⟩
  · refine ⟨hle, fun hchr => ?_⟩
    exact absurd (le_of_eq (congrArg humanKey hchr.symm)) hnle

/-- Witness for C5: a two-chromosome run where `chr2` rows precede `chr10`
rows in natural order although `chr10` sorts first lexicographically. -/
theorem final_rows_sorted_witness :
    (∀ r1 ∈ [(⟨"chr10", 0, 50⟩ : Region), ⟨"chr2", 0, 50⟩],
      ∀ r2 ∈ [(⟨"chr10", 0, 50⟩ : Region), ⟨"chr2", 0, 50⟩],
        r1.chr = r2.chr → r1 = r2 ∨ r1.stop < r2.start ∨ r2.stop < r1.start) ∧
    (humanKey "chr2" ≤ humanKey "chr10" ∧ ¬ humanKey "chr10" ≤ humanKey "chr2") ∧
    (get_regions_to_mask 2
        [⟨"chr10", 1, "a"⟩, ⟨"chr10", 2, "b"⟩, ⟨"chr10", 3, "c"⟩,
         ⟨"chr10", 4, "d"⟩, ⟨"chr2", 5, "e"⟩, ⟨"chr2", 6, "f"⟩,
         ⟨"chr2", 7, "g"⟩, ⟨"chr2", 8, "h"⟩]
        [⟨"chr10", 0, 50⟩, ⟨"chr2", 0, 50⟩]).Pairwise
      (fun a b => humanKey a.chr ≤ humanKey b.chr ∧
        (a.chr = b.chr → a.region_start ≤ b.region_start)) :=
  ⟨by decide, by decide,
    final_rows_sorted 2
      [⟨"chr10", 1, "a"⟩, ⟨"chr10", 2, "b"⟩, ⟨"chr10", 3, "c"⟩,
       ⟨"chr10", 4, "d"⟩, ⟨"chr2", 5, "e"⟩, ⟨"chr2", 6, "f"⟩,
       ⟨"chr2", 7, "g"⟩, ⟨"chr2", 8, "h"⟩]
      [⟨"chr10", 0, 50⟩, ⟨"chr2", 0, 50⟩] (by decide)⟩

/-! ## Lemmas about the condenser -/

theorem mem_filter_to_coding {rows : List AnnRecord} {r' : AnnRecord}
    (h : r' ∈ filter_to_coding_regions rows) :
    r' ∈ rows ∧ isCoding r' = true := by
  unfold filter_to_coding_regions at h
  have h2 := (dedupByKey_sublist _ _).subset h
  rw [(List.perm_insertionSort nameLe _).mem_iff] at h2
  exact List.mem_filter.mp h2

theorem exists_coords_rep_filter_to_coding {rows : List AnnRecord}
    {r : AnnRecord} (hr : r ∈ rows) (hc : isCoding r = true) :
    ∃ r' ∈ filter_to_coding_regions rows,
      r'.chr = r.chr ∧ r'.start = r.start ∧ r'.stop = r.stop := by
  have hmem : r ∈ List.insertionSort nameLe (rows.filter isCoding) := by
    rw [(List.perm_insertionSort nameLe _).mem_iff]
    exact List.mem_filter.mpr ⟨hr, hc⟩
  rcases @exists_rep_mem_dedupByKey AnnRecord (String × Int × Int)
      (fun r => (r.chr, r.start, r.stop)) _ r _ hmem with ⟨b, hb, he⟩
  simp only [Prod.mk.injEq] at he
  exact ⟨b, hb, he.1, he.2.1, he.2.2⟩

theorem listMin_of_ne_nil {l : List Int} (h : l ≠ []) :
    ∃ v, listMin l = some v := by
  cases l with
  | nil => exact absurd rfl h
  | cons x xs => exact ⟨_, rfl⟩

theorem listMax_of_ne_nil {l : List Int} (h : l ≠ []) :
    ∃ v, listMax l = some v := by
  cases l with
  | nil => exact absurd rfl h
  | cons x xs => exact ⟨_, rfl⟩

theorem length_filter_eq_one_of_pairwise_ne {α : Type} {l : List α} {a : α}
    {q : α → Bool} (hq : ∀ x, q x = true ↔ x = a)
    (hnd : l.Pairwise (fun x y => x ≠ y)) (ha : a ∈ l) :
    (l.filter q).length = 1 := by
  induction l with
  | nil => cases ha
  | cons x xs ih =>
    rw [List.filter_cons]
    have hp := List.pairwise_cons.mp hnd
    rcases List.mem_cons.mp ha with rfl | ha'
    · rw [if_pos ((hq _).mpr rfl)]
      have hnil : xs.filter q = [] := by
        rw [List.filter_eq_nil_iff]
        intro b hb hqb
        exact hp.1 b hb ((hq b).mp hqb).symm
      simp [hnil]
    · have hx : ¬ (q x = true) := by
        intro hqx
        exact hp.1 a ha' ((hq x).mp hqx)
      rw [if_neg hx]
      exact ih hp.2 ha'

/-! ## Claim theorems for the condenser -/

/-- C4, as stated, is false: the filter keeps only categories containing
`"refseq/coding"`, so a category containing the substring `"coding"` alone —
such as `"refseq/noncoding"` — is discarded although the claim includes
it. -/
theorem coding_substring_counterexample :
    ("coding".toList <:+:
      ("refseq/noncoding" : String).toList) ∧
    isCoding ⟨"G1", "chr1", 5, 10, "+", "refseq/noncoding"⟩ = false ∧
    filter_to_coding_regions [⟨"G1", "chr1", 5, 10, "+", "refseq/noncoding"⟩]
      = [] := by
  decide

/-- C4 amended: a record participates in condensation exactly when its
category contains the substring `"refseq/coding"`; all other records are
discarded without any error (the filter is total), and every surviving
record is a coding input record.  Participation is up to the coordinate
deduplication: the record's `(Chr, Start, Stop)` row survives. -/
theorem coding_filter_amended (rows : List AnnRecord) (r : AnnRecord)
    (hmem : r ∈ rows) :
    (isCoding r = true ↔ ("refseq/coding".toList <:+: r.category.toList)) ∧
    (isCoding r = false → r ∉ filter_to_coding_regions rows) ∧
    (isCoding r = true → ∃ r' ∈ filter_to_coding_regions rows,
      r'.chr = r.chr ∧ r'.start = r.start ∧ r'.stop = r.stop ∧
        isCoding r' = true) ∧
    (∀ r' ∈ filter_to_coding_regions rows, r' ∈ rows ∧ isCoding r' = true) := by
  refine ⟨by simp [isCoding], ?_, ?_, fun r' h => mem_filter_to_coding h⟩
  · intro hf hin
    rw [(mem_filter_to_coding hin).2] at hf
    exact Bool.noConfusion hf
  · intro hc
    rcases exists_coords_rep_filter_to_coding hmem hc with ⟨r', h1, h2, h3, h4⟩
    exact ⟨r', h1, h2, h3, h4, (mem_filter_to_coding h1).2⟩

/-- Witness for the amended C4: a `"refseq/coding"` record survives the
filter with its coordinates. -/
theorem coding_filter_amended_witness :
    ((⟨"A", "chr1", 100, 200, "+", "refseq/coding"⟩ : AnnRecord) ∈
      [(⟨"A", "chr1", 100, 200, "+", "refseq/coding"⟩ : AnnRecord)]) ∧
    (isCoding ⟨"A", "chr1", 100, 200, "+", "refseq/coding"⟩ = true →
      ∃ r' ∈ filter_to_coding_regions
          [(⟨"A", "chr1", 100, 200, "+", "refseq/coding"⟩ : AnnRecord)],
        r'.chr = "chr1" ∧ r'.start = 100 ∧ r'.stop = 200 ∧
          isCoding r' = true) :=
  ⟨by decide,
    (coding_filter_amended
      [(⟨"A", "chr1", 100, 200, "+", "refseq/coding"⟩ : AnnRecord)]
      ⟨"A", "chr1", 100, 200, "+", "refseq/coding"⟩ (by decide)).2.2.1⟩

/-- C3, as stated, is false: `drop_duplicates` runs after `name` has become
the dataframe index, so it keys on `(Chr, Start, Stop)` only.  Gene B's only
coding record is removed because gene A has a record with the same
coordinates, and B gets no condensed region at all. -/
theorem condense_dedup_counterexample :
    isCoding ⟨"B", "chr1", 100, 200, "+", "refseq/coding"⟩ = true ∧
    (⟨"B", "chr1", 100, 200, "+", "refseq/coding"⟩ : AnnRecord) ≠
      ⟨"A", "chr1", 100, 200, "+", "refseq/coding"⟩ ∧
    filter_to_coding_regions
        [⟨"A", "chr1", 100, 200, "+", "refseq/coding"⟩,
         ⟨"B", "chr1", 100, 200, "+", "refseq/coding"⟩]
      = [⟨"A", "chr1", 100, 200, "+", "refseq/coding"⟩] ∧
    condense_regions (filter_to_coding_regions
        [⟨"A", "chr1", 100, 200, "+", "refseq/coding"⟩,
         ⟨"B", "chr1", 100, 200, "+", "refseq/coding"⟩])
      = [⟨"A", "chr1", 100, 200⟩] := by
  decide

/-- C3 amended: deduplication keys on `(Chr, Start, Stop)` only (it can
remove a row that differs from an earlier-sorted one solely in its gene
name); for every `(gene_name, chromosome)` pair with at least one surviving
record, the condenser emits exactly one region, whose start/stop are the
min/max over that pair's surviving records. -/
theorem condense_regions_amended (rows : List AnnRecord) (g c : String)
    (h : ∃ r ∈ filter_to_coding_regions rows, r.name = g ∧ r.chr = c) :
    ((condense_regions (filter_to_coding_regions rows)).filter
        (fun e => decide (e.name = g ∧ e.chr = c))).length = 1 ∧
    ∀ e ∈ condense_regions (filter_to_coding_regions rows),
      e.name = g → e.chr = c →
        listMin (((filter_to_coding_regions rows).filter
            (fun r => decide (r.name = g ∧ r.chr = c))).map AnnRecord.start)
          = some e.start ∧
        listMax (((filter_to_coding_regions rows).filter
            (fun r => decide (r.name = g ∧ r.chr = c))).map AnnRecord.stop)
          = some e.stop := by
  have hkey : (g, c) ∈ dedupByKey id (List.insertionSort pairLe
      ((filter_to_coding_regions rows).map (fun r => (r.name, r.chr)))) := by
    rw [mem_dedupByKey_id, (List.perm_insertionSort pairLe _).mem_iff,
      List.mem_map]
    rcases h with ⟨r, hr, h1, h2⟩
    exact ⟨r, hr, by rw [h1, h2]⟩
  have hSne : (filter_to_coding_regions rows).filter
      (fun r => decide (r.name = g ∧ r.chr = c)) ≠ [] := by
    rcases h with ⟨r, hr, h1, h2⟩
    intro hnil
    have hrf : r ∈ (filter_to_coding_regions rows).filter
        (fun r => decide (r.name = g ∧ r.chr = c)) :=
      List.mem_filter.mpr ⟨hr, by simp [h1, h2]⟩
    rw [hnil] at hrf
    cases hrf
  constructor
  · unfold condense_regions
    rw [List.filter_map, List.length_map]
    refine length_filter_eq_one_of_pairwise_ne ?_
      (pairwise_key_ne_dedupByKey id _) hkey
    intro x
    simp only [Function.comp_apply, decide_eq_true_eq]
    constructor
    · rintro ⟨h1, h2⟩
      exact Prod.ext_iff.mpr ⟨h1, h2⟩
    · rintro rfl
      exact ⟨rfl, rfl⟩
  · intro e he hg hc2
    unfold condense_regions at he
    rcases List.mem_map.mp he with ⟨k, _, hF⟩
    have hk1 : k.1 = g := by rw [← hg, ← hF]
    have hk2 : k.2 = c := by rw [← hc2, ← hF]
    obtain ⟨v, hv⟩ := listMin_of_ne_nil (l :=
      (((filter_to_coding_regions rows).filter
        (fun r => decide (r.name = g ∧ r.chr = c))).map AnnRecord.start))
      (by simpa using hSne)
    obtain ⟨w, hw⟩ := listMax_of_ne_nil (l :=
      (((filter_to_coding_regions rows).filter
        (fun r => decide (r.name = g ∧ r.chr = c))).map AnnRecord.stop))
      (by simpa using hSne)
    have hes : e.start = v := by
      rw [← hF]
      show (listMin (((filter_to_coding_regions rows).filter
        (fun r => decide (r.name = k.1 ∧ r.chr = k.2))).map
          AnnRecord.start)).getD 0 = v
      rw [hk1, hk2, hv]
      rfl
    have het : e.stop = w := by
      rw [← hF]
      show (listMax (((filter_to_coding_regions rows).filter
        (fun r => decide (r.name = k.1 ∧ r.chr = k.2))).map
          AnnRecord.stop)).getD 0 = w
      rw [hk1, hk2, hw]
      rfl
    rw [hes, het]
    exact ⟨hv, hw⟩

/-- Witness for the amended C3: two coding records of gene A condense to one
region spanning min start to max stop. -/
theorem condense_regions_amended_witness :
    (∃ r ∈ filter_to_coding_regions
        [⟨"A", "chr1", 100, 200, "+", "refseq/coding"⟩,
         ⟨"A", "chr1", 150, 300, "+", "refseq/coding"⟩],
      r.name = "A" ∧ r.chr = "chr1") ∧
    ((condense_regions (filter_to_coding_regions
        [⟨"A", "chr1", 100, 200, "+", "refseq/coding"⟩,
         ⟨"A", "chr1", 150, 300, "+", "refseq/coding"⟩])).filter
      (fun e => decide (e.name = "A" ∧ e.chr = "chr1"))).length = 1 :=
  ⟨by decide,
    (condense_regions_amended
      [⟨"A", "chr1", 100, 200, "+", "refseq/coding"⟩,
       ⟨"A", "chr1", 150, 300, "+", "refseq/coding"⟩] "A" "chr1"
      (by decide)).1⟩

end OverlapMap
